import Mathlib

/-!
Verification development for the PSD analyzer (src/main.cpp).

The C++ program is shallowly embedded.  A `QDataStream` over an in-memory
byte source is modelled by `ByteStream`: a list of bytes plus a cursor.
Qt's semantics for reading past the end of the device (the value read is
zero and the stream enters a sticky `ReadPastEnd` state, so every later
read also yields zero) are captured by `List.getD _ _ 0`: once the cursor
is at or beyond the end, every subsequent read returns 0 and `atEnd` stays
true, which is observationally identical to Qt's behaviour.  The cursor is
allowed to move past `data.length` (Qt clamps it at the end); the two
conventions are indistinguishable through `atEnd` and the reads.
-/

/-- In-memory big-endian byte source with a cursor, modelling `QDataStream`
over a `QByteArray`/`QFile` (bytes are naturals below 256). -/
structure ByteStream where
  data : List Nat
  pos : Nat
  deriving Repr, DecidableEq

/-- `QIODevice::atEnd`. -/
def ByteStream.atEnd (s : ByteStream) : Bool :=
  s.data.length ≤ s.pos

/-- One raw byte (`operator>>(qint8&)` / `operator>>(quint8&)`); reading
past the end yields 0, as `QDataStream` does. -/
def readByte (s : ByteStream) : Nat × ByteStream :=
  (s.data.getD s.pos 0, ⟨s.data, s.pos + 1⟩)

/-- Big-endian `quint16` read.  `QDataStream` delivers 0 for the whole
value when fewer than 2 bytes remain (short `readBlock`). -/
def readU16 (s : ByteStream) : Nat × ByteStream :=
  if s.pos + 2 ≤ s.data.length then
    (s.data.getD s.pos 0 * 256 + s.data.getD (s.pos + 1) 0, ⟨s.data, s.pos + 2⟩)
  else
    (0, ⟨s.data, s.pos + 2⟩)

/-- Big-endian `quint32` read; 0 when fewer than 4 bytes remain. -/
def readU32 (s : ByteStream) : Nat × ByteStream :=
  if s.pos + 4 ≤ s.data.length then
    (s.data.getD s.pos 0 * 16777216 + s.data.getD (s.pos + 1) 0 * 65536 +
      s.data.getD (s.pos + 2) 0 * 256 + s.data.getD (s.pos + 3) 0, ⟨s.data, s.pos + 4⟩)
  else
    (0, ⟨s.data, s.pos + 4⟩)

/-- `QDataStream::skipRawData`. -/
def skipBytes (s : ByteStream) (n : Nat) : ByteStream :=
  ⟨s.data, s.pos + n⟩

/-- Reinterpret a byte as the C++ `char` (signed 8-bit) value, as
`uncompressRLE` does with its control byte `code`. -/
def toSigned8 (b : Nat) : Int :=
  if b < 128 then (b : Int) else (b : Int) - 256

/-! ### The RLE codec (`uncompressRLE`, src/main.cpp lines 457-534) -/

/-- The scanline-length-table loop of `uncompressRLE`: `height` big-endian
`quint16` entries, failing (`QByteArray()` in C++) when `atEnd` is hit
before an entry. -/
def readLengthTable (s : ByteStream) (h : Nat) (acc : List Nat) :
    Option (List Nat × ByteStream) :=
  match h with
  | 0 => some (acc, s)
  | n + 1 =>
    if s.atEnd then none
    else
      let r := readU16 s
      readLengthTable r.2 n (acc ++ [r.1])

/-- The continuous-run inner loop: write `data` at positions
`pos, pos+1, …, pos+n-1` of the scanline. -/
def repeatWrite (scanLine : List Nat) (pos data n : Nat) : List Nat :=
  match n with
  | 0 => scanLine
  | m + 1 => repeatWrite (scanLine.set pos data) (pos + 1) data m

/-- The discontinuous-run inner loop: read `n` literal bytes into the
scanline starting at `pos`. -/
def literalRead (s : ByteStream) (scanLine : List Nat) (pos n : Nat) :
    ByteStream × List Nat :=
  match n with
  | 0 => (s, scanLine)
  | m + 1 =>
    let r := readByte s
    literalRead r.2 (scanLine.set pos r.1) (pos + 1) m

/-- The per-scanline loop `for (int i = 0; i < lengthTable[y];)` of
`uncompressRLE`.  `i` counts compressed bytes consumed from this scanline;
the C++ code increments it once per byte read, which totals `i + 2` for a
continuous run and `i + 1 + discontinuousLength` for a discontinuous one.
Returns the stream, the scanline, and the final `scanLinePos`; `none`
models the C++ `return QByteArray()` on an overlong run. -/
def decodeRun (width target : Nat) (s : ByteStream) (i pos : Nat)
    (scanLine : List Nat) : Option (ByteStream × List Nat × Nat) :=
  if i < target then
    let r := readByte s
    if toSigned8 r.1 < 0 then
      let continuousLength := (1 - toSigned8 r.1).toNat
      if width < continuousLength + pos then none
      else
        let rd := readByte r.2
        decodeRun width target rd.2 (i + 2) (pos + continuousLength)
          (repeatWrite scanLine pos rd.1 continuousLength)
    else
      let discontinuousLength := (toSigned8 r.1).toNat + 1
      if width < discontinuousLength + pos then none
      else
        let rs := literalRead r.2 scanLine pos discontinuousLength
        decodeRun width target rs.1 (i + 1 + discontinuousLength)
          (pos + discontinuousLength) rs.2
  else some (s, scanLine, pos)
termination_by target - i
decreasing_by
  · omega
  · omega

/-- The scanline-transfer loop `channel[y * width + x] = scanLine[x]`. -/
def transferScanLine (channel scanLine : List Nat) (y width x : Nat) : List Nat :=
  if x < width then
    transferScanLine (channel.set (y * width + x) (scanLine.getD x 0))
      scanLine y width (x + 1)
  else channel
termination_by width - x

/-- The outer scanline loop of `uncompressRLE`. -/
def decodeLines (width height : Nat) (tbl : List Nat) (s : ByteStream)
    (y : Nat) (channel : List Nat) : Option (List Nat) :=
  if y < height then
    match decodeRun width (tbl.getD y 0) s 0 0 (List.replicate width 0) with
    | none => none
    | some (s', scanLine, _) =>
      decodeLines width height tbl s' (y + 1)
        (transferScanLine channel scanLine y width 0)
  else some channel
termination_by height - y

/-- `uncompressRLE` (src/main.cpp lines 457-534).  The empty list models
the empty `QByteArray` returned on every failure path. -/
def uncompressRLE (width height : Nat) (compressed : List Nat) : List Nat :=
  match readLengthTable ⟨compressed, 0⟩ height [] with
  | none => []
  | some (tbl, s) =>
    match decodeLines width height tbl s 0 (List.replicate (width * height) 0) with
    | none => []
    | some channel => channel

/-! ### A reference RLE encoder (the `compress` of the round-trip property)

Each plane byte is emitted as its own one-byte discontinuous (literal)
run: control byte 0 followed by the byte itself.  Every scanline hence
compresses to `2 * width` bytes, and the length table is `height` copies
of the big-endian 16-bit value `2 * width`; both the table and the runs
are well formed whenever `width ≤ 32767`. -/

def encodeRowRLE : List Nat → List Nat
  | [] => []
  | b :: t => 0 :: b :: encodeRowRLE t

def rleLengthTable (w : Nat) : Nat → List Nat
  | 0 => []
  | n + 1 => 2 * w / 256 :: 2 * w % 256 :: rleLengthTable w n

def rleBody (w : Nat) : List Nat → Nat → List Nat
  | _, 0 => []
  | plane, n + 1 => encodeRowRLE (plane.take w) ++ rleBody w (plane.drop w) n

def compressRLEref (w h : Nat) (plane : List Nat) : List Nat :=
  rleLengthTable w h ++ rleBody w plane h

/-! ### RLE failure modes (claim C5) -/

/-- The RLE branch of `loadPSDLayer` (src/main.cpp lines 581-594): decode
the channel, then `goto compression_error` (abort the whole layer decode,
modelled by `none`) when the decoded size differs from `width * height`. -/
def rleChannelDecode (width height : Nat) (compressed : List Nat) :
    Option (List Nat) :=
  let raw := uncompressRLE width height compressed
  if raw.length ≠ width * height then none else some raw

/-! ### PSD signatures and the additional-layer-info scanner
(src/main.cpp lines 21-23, 107-116, 312-324, 366-411) -/

def psdSignature8BPS : Nat := 0x38425053
def psdSignature8BIM : Nat := 0x3842494D
def psdSignature8B64 : Nat := 0x38623634

def psdAdditionalLayerInfoDataOffset : Nat := 8
def psdAdditionalLayerInfoSize : Nat := 12

/-- `PSDAdditionalLayerInfo` (src/main.cpp lines 107-113). -/
structure PSDAdditionalLayerInfo where
  signature : Nat
  characterCode : Nat
  length : Nat
  deriving Repr, DecidableEq

/-- `operator>>(QDataStream&, PSDAdditionalLayerInfo&)` (lines 312-324):
read the 4-byte tag signature and return early when it matches neither
recognized magic (the C++ code then leaves `characterCode` and `length`
uninitialized and unused; the model sets them to 0); otherwise read the
4-byte sub-type code and the 4-byte payload length. -/
def readPSDAdditionalLayerInfo (s : ByteStream) :
    PSDAdditionalLayerInfo × ByteStream :=
  let r1 := readU32 s
  if r1.1 ≠ psdSignature8BIM ∧ r1.1 ≠ psdSignature8B64 then
    (⟨r1.1, 0, 0⟩, r1.2)
  else
    let r2 := readU32 r1.2
    let r3 := readU32 r2.2
    (⟨r1.1, r2.1, r3.1⟩, r3.2)

/-- The distinct `qDebug` diagnoses on the failure paths of
`scanAdditionalLayerInfo` (the C++ function merges them into `-1`). -/
inductive ScanError where
  | budgetTooSmall
  | endOfStream
  | invalidSignature
  deriving Repr, DecidableEq

/-- `scanAdditionalLayerInfo` (src/main.cpp lines 366-411).  The in-memory
stream raises no `QFileDevice` error, so that branch cannot fire.  The
C++ function returns 0 on success with the loop's final non-positive
`remBytes` in a local; the model returns that final budget alongside the
stream so the exit budget can be stated.  `length + padding` and
`length + padding + 12` are `quint32` sums, hence the `% 2 ^ 32`. -/
def scanAdditionalLayerInfo (s : ByteStream) (remBytes : Int) :
    Except ScanError (ByteStream × Int) :=
  if remBytes > 0 then
    if remBytes < (psdAdditionalLayerInfoDataOffset : Int) then
      .error .budgetTooSmall
    else if s.atEnd then .error .endOfStream
    else
      let r := readPSDAdditionalLayerInfo s
      if r.1.signature ≠ psdSignature8BIM then .error .invalidSignature
      else
        let rem4 := r.1.length % 4
        let padding := if rem4 = 0 then 0 else 4 - rem4
        let s2 := skipBytes r.2 ((r.1.length + padding) % 2 ^ 32)
        scanAdditionalLayerInfo s2
          (remBytes -
            ((r.1.length + padding + psdAdditionalLayerInfoSize) % 2 ^ 32))
  else .ok (s, remBytes)
termination_by s.data.length - s.pos
decreasing_by
  have hsnd : ∀ u : ByteStream, (readU32 u).2 = ⟨u.data, u.pos + 4⟩ := by
    intro u
    rw [readU32]
    split <;> rfl
  have h2 : (readPSDAdditionalLayerInfo s).2.data.length = s.data.length ∧
      s.pos + 4 ≤ (readPSDAdditionalLayerInfo s).2.pos := by
    rw [readPSDAdditionalLayerInfo]
    split
    · simp [hsnd]
    · simp [hsnd]
  rename_i _ _ hae _
  have hae2 : s.pos < s.data.length := by
    simp [ByteStream.atEnd] at hae
    omega
  simp only [skipBytes]
  omega

/-! ### The layer-record reader (src/main.cpp lines 68-93, 326-364) -/

/-- Reinterpret a 16-bit value as the signed `qint16` channel id. -/
def toSigned16 (v : Nat) : Int :=
  if v < 32768 then (v : Int) else (v : Int) - 65536

/-- `PSDChannelInfo` (lines 68-72). -/
structure PSDChannelInfo where
  channelId : Int
  correspondingChannelDataLength : Nat
  deriving Repr, DecidableEq

/-- `PSDLayerRecord` (lines 76-91). -/
structure PSDLayerRecord where
  top : Nat
  left : Nat
  bottom : Nat
  right : Nat
  channels : Nat
  channelInfos : List PSDChannelInfo
  signature : Nat
  blendModeKey : Nat
  opacity : Nat
  clipping : Nat
  flags : Nat
  filler : Nat
  extraDataFieldLength : Nat
  deriving Repr, DecidableEq

/-- The record `PSDLayerRecord record;` with all fields at their
default/zero values and an empty channel list, the state the claim
ascribes to the fields the reader never writes. -/
def defaultPSDLayerRecord : PSDLayerRecord :=
  ⟨0, 0, 0, 0, 0, [], 0, 0, 0, 0, 0, 0, 0⟩

/-- The channel-descriptor loop of `operator>>(…, PSDLayerRecord&)`
(lines 337-343): `n` pairs of signed 16-bit channel id and 32-bit data
length, appended to the record's list. -/
def readChannelInfos (s : ByteStream) (n : Nat) (acc : List PSDChannelInfo) :
    List PSDChannelInfo × ByteStream :=
  match n with
  | 0 => (acc, s)
  | m + 1 =>
    let r1 := readU16 s
    let r2 := readU32 r1.2
    readChannelInfos r2.2 m (acc ++ [⟨toSigned16 r1.1, r2.1⟩])

/-- `operator>>(QDataStream&, PSDLayerRecord&)` (lines 326-364): rectangle,
channel count, that many channel descriptors, then the 4-byte section
signature; if it differs from `8BIM` the reader returns at once, leaving
the blend-mode/opacity/clipping/flags/filler/extra-length fields of the
caller's record untouched; otherwise it reads those fields too. -/
def readPSDLayerRecord (d : PSDLayerRecord) (s : ByteStream) :
    PSDLayerRecord × ByteStream :=
  let rTop := readU32 s
  let rLeft := readU32 rTop.2
  let rBottom := readU32 rLeft.2
  let rRight := readU32 rBottom.2
  let rChannels := readU16 rRight.2
  let rInfos := readChannelInfos rChannels.2 rChannels.1 d.channelInfos
  let rSig := readU32 rInfos.2
  if rSig.1 ≠ psdSignature8BIM then
    ({ d with
       top := rTop.1, left := rLeft.1, bottom := rBottom.1,
       right := rRight.1, channels := rChannels.1, channelInfos := rInfos.1,
       signature := rSig.1 }, rSig.2)
  else
    let rBlend := readU32 rSig.2
    let rOpacity := readByte rBlend.2
    let rClipping := readByte rOpacity.2
    let rFlags := readByte rClipping.2
    let rFiller := readByte rFlags.2
    let rExtra := readU32 rFiller.2
    ({ d with
       top := rTop.1, left := rLeft.1, bottom := rBottom.1,
       right := rRight.1, channels := rChannels.1, channelInfos := rInfos.1,
       signature := rSig.1,
       blendModeKey := rBlend.1, opacity := rOpacity.1,
       clipping := rClipping.1, flags := rFlags.1, filler := rFiller.1,
       extraDataFieldLength := rExtra.1 }, rExtra.2)

/-! ### Global layer mask info and the document walker's tail
(src/main.cpp lines 95-105, 289-310, 744-775) -/

/-- `PSDGlobalLayerMaskInfo` (lines 95-103). -/
structure PSDGlobalLayerMaskInfo where
  length : Nat
  overlayColorSpace : Nat
  colorComponents0 : Nat
  colorComponents1 : Nat
  colorComponents2 : Nat
  colorComponents3 : Nat
  opacity : Nat
  kind : Nat
  deriving Repr, DecidableEq

def psdGlobalLayerMaskInfoDataOffset : Nat := 13

/-- `operator>>(QDataStream&, PSDGlobalLayerMaskInfo&)` (lines 289-310):
a 4-byte length; when it is non-zero the fixed fields follow and
`length - 13` filler bytes are skipped (`quint32` subtraction, hence the
wrap-around for lengths below 13).  A zero length reads nothing further
(the C++ code then leaves the other members uninitialized and unused; the
model sets them to 0). -/
def readPSDGlobalLayerMaskInfo (s : ByteStream) :
    PSDGlobalLayerMaskInfo × ByteStream :=
  let rLen := readU32 s
  if rLen.1 ≠ 0 then
    let r1 := readU16 rLen.2
    let r2 := readU16 r1.2
    let r3 := readU16 r2.2
    let r4 := readU16 r3.2
    let r5 := readU16 r4.2
    let r6 := readU16 r5.2
    let r7 := readByte r6.2
    (⟨rLen.1, r1.1, r2.1, r3.1, r4.1, r5.1, r6.1, r7.1⟩,
      skipBytes r7.2
        ((((rLen.1 : Int) - psdGlobalLayerMaskInfoDataOffset).emod (2 ^ 32)).toNat))
  else
    (⟨0, 0, 0, 0, 0, 0, 0, 0⟩, rLen.2)

/-- The 2-byte channel-image-data alignment skip of `main`
(lines 744-751). -/
def channelDataPaddingSkip (s : ByteStream) (channelImageDataSize : Nat) :
    ByteStream :=
  let rem := channelImageDataSize % 2
  let padding := if rem = 0 then 0 else 2 - rem
  if padding ≠ 0 then skipBytes s padding else s

/-- The outcome of the document walker's tail. -/
structure WalkerTailResult where
  mismatchReported : Bool
  records : List PSDLayerRecord
  images : List (List Nat)
  globalLayerMaskInfo : PSDGlobalLayerMaskInfo
  budget : Int
  scan : Except ScanError (ByteStream × Int)
  deriving Repr

/-- The tail of `main` (src/main.cpp lines 744-775): skip the 2-byte
channel-data alignment padding, report (without propagating) the
LayerInfo length reconciliation, compute the `quint32` remainder
`layerAndMaskInfoRem` (both subtractions wrap modulo `2 ^ 32`), read the
global layer mask info, subtract its length plus length-field size, and
run the additional-block scan with the result as its `qint64` budget.
The layer records and decoded channel planes obtained earlier in `main`
are carried through unchanged. -/
def walkerTail (layerAndMaskLen layerInfoLen consumedLayerInfoSize
    channelImageDataSize : Nat) (records : List PSDLayerRecord)
    (images : List (List Nat)) (s : ByteStream) : WalkerTailResult :=
  let s1 := channelDataPaddingSkip s channelImageDataSize
  let rem0 : Nat :=
    (((layerAndMaskLen : Int) -
      (4 + consumedLayerInfoSize + channelImageDataSize)).emod (2 ^ 32)).toNat
  let rGlobal := readPSDGlobalLayerMaskInfo s1
  let rem1 : Nat :=
    (((rem0 : Int) - (rGlobal.1.length + 4)).emod (2 ^ 32)).toNat
  { mismatchReported :=
      decide (layerInfoLen ≠
        (consumedLayerInfoSize + channelImageDataSize) % 2 ^ 32)
    records := records
    images := images
    globalLayerMaskInfo := rGlobal.1
    budget := (rem1 : Int)
    scan := scanAdditionalLayerInfo rGlobal.2 (rem1 : Int) }
/-! ### The channel compositor (`compoundLayerChannel`,
src/main.cpp lines 413-455) -/

/-- A `QImage` in `Format_ARGB32`: each pixel is one packed 32-bit
`0xAARRGGBB` value, stored row-major. -/
structure QImageM where
  width : Nat
  height : Nat
  pixels : List Nat
  deriving Repr, DecidableEq

/-- `QImage::pixel(x, y)`. -/
def QImageM.pixel (img : QImageM) (x y : Nat) : Nat :=
  img.pixels.getD (y * img.width + x) 0

/-- A `width * height` raster with every pixel fully transparent black
(the default raster of the compositing scenario). -/
def defaultImage (w h : Nat) : QImageM :=
  ⟨w, h, List.replicate (w * h) 0⟩

/-- The two early-return diagnoses of `compoundLayerChannel`. -/
inductive CompoundError where
  | outOfRange
  | unknownChannel
  deriving Repr, DecidableEq

/-- The `switch (channel)` of `compoundLayerChannel` (lines 434-451):
write the channel byte into the selected lane of the packed pixel;
`none` models the `default` case (unknown channel). -/
def compoundPixel (pixel subPixel : Nat) (channel : Int) : Option Nat :=
  if channel = -1 then some ((pixel &&& 0x00FFFFFF) ||| (subPixel <<< 24))
  else if channel = 0 then some ((pixel &&& 0xFF00FFFF) ||| (subPixel <<< 16))
  else if channel = 1 then some ((pixel &&& 0xFFFF00FF) ||| (subPixel <<< 8))
  else if channel = 2 then some ((pixel &&& 0xFFFFFF00) ||| (subPixel <<< 0))
  else none

/-- The inner (x) loop of `compoundLayerChannel`.  `QImage::setPixel`
never changes the image dimensions, so the loop bounds `img.width()` /
`img.height()` are threaded as the fixed parameters `w` / `h` and the
loops carry only the pixel data.  An early `return` keeps the pixels
already written. -/
def compoundRow (w : Nat) (bytes : List Nat) (channel : Int) (y : Nat)
    (pixels : List Nat) (x : Nat) : List Nat × Option CompoundError :=
  if x < w then
    let pixel := pixels.getD (y * w + x) 0
    let offset := y * w + x
    if bytes.length ≤ offset then (pixels, some .outOfRange)
    else
      let subPixel := bytes.getD offset 0 &&& 0xFF
      match compoundPixel pixel subPixel channel with
      | none => (pixels, some .unknownChannel)
      | some p => compoundRow w bytes channel y (pixels.set (y * w + x) p) (x + 1)
  else (pixels, none)
termination_by w - x

/-- The outer (y) loop of `compoundLayerChannel`. -/
def compoundRows (w h : Nat) (bytes : List Nat) (channel : Int)
    (pixels : List Nat) (y : Nat) : List Nat × Option CompoundError :=
  if y < h then
    match compoundRow w bytes channel y pixels 0 with
    | (px, none) => compoundRows w h bytes channel px (y + 1)
    | (px, some e) => (px, some e)
  else (pixels, none)
termination_by h - y

/-- `compoundLayerChannel` (src/main.cpp lines 420-455). -/
def compoundLayerChannel (img : QImageM) (bytes : List Nat) (channel : Int) :
    QImageM × Option CompoundError :=
  let r := compoundRows img.width img.height bytes channel img.pixels 0
  ({ img with pixels := r.1 }, r.2)

/-- The alpha lane of a packed `0xAARRGGBB` pixel. -/
def laneA (p : Nat) : Nat := (p >>> 24) &&& 0xFF

/-- The red lane. -/
def laneR (p : Nat) : Nat := (p >>> 16) &&& 0xFF

/-- The green lane. -/
def laneG (p : Nat) : Nat := (p >>> 8) &&& 0xFF

/-- The blue lane. -/
def laneB (p : Nat) : Nat := p &&& 0xFF

/-- The lane selected by a channel identifier (−1 alpha, 0 red, 1 green,
2 blue). -/
def laneOf (channel : Int) (p : Nat) : Nat :=
  if channel = -1 then laneA p
  else if channel = 0 then laneR p
  else if channel = 1 then laneG p
  else if channel = 2 then laneB p
  else 0


/-! ### Theorems -/

theorem encodeRowRLE_length (row : List Nat) :
    (encodeRowRLE row).length = 2 * row.length := by
  induction row with
  | nil => simp [encodeRowRLE]
  | cons b t ih => simp [encodeRowRLE, ih]; omega

/-! ### Stream-suffix lemmas -/

theorem pos_lt_of_drop {s : ByteStream} {b : Nat} {t : List Nat}
    (h : s.data.drop s.pos = b :: t) : s.pos < s.data.length := by
  have h1 := congrArg List.length h
  simp at h1
  omega

theorem readByte_of_drop {s : ByteStream} {b : Nat} {t : List Nat}
    (h : s.data.drop s.pos = b :: t) :
    readByte s = (b, ⟨s.data, s.pos + 1⟩) ∧ s.data.drop (s.pos + 1) = t := by
  refine ⟨?_, ?_⟩
  · have hb : s.data[s.pos]? = some b := by
      have h2 := List.getElem?_drop s.data s.pos 0
      rw [h] at h2
      simpa using h2.symm
    simp [readByte, hb]
  · have h2 := congrArg (List.drop 1) h
    rw [List.drop_drop] at h2
    simpa using h2

theorem readU16_of_drop {s : ByteStream} {b1 b2 : Nat} {t : List Nat}
    (h : s.data.drop s.pos = b1 :: b2 :: t) :
    readU16 s = (b1 * 256 + b2, ⟨s.data, s.pos + 2⟩) ∧
      s.data.drop (s.pos + 2) = t := by
  have hlen : s.pos + 2 ≤ s.data.length := by
    have h1 := congrArg List.length h
    simp at h1
    omega
  refine ⟨?_, ?_⟩
  · have h1 : s.data[s.pos]? = some b1 := by
      have h2 := List.getElem?_drop s.data s.pos 0
      rw [h] at h2
      simpa using h2.symm
    have h2 : s.data[s.pos + 1]? = some b2 := by
      have h3 := List.getElem?_drop s.data s.pos 1
      rw [h] at h3
      simpa using h3.symm
    simp [readU16, hlen, h1, h2]
  · have h2 := congrArg (List.drop 2) h
    rw [List.drop_drop] at h2
    simpa using h2

theorem atEnd_false_of_drop {s : ByteStream} {b : Nat} {t : List Nat}
    (h : s.data.drop s.pos = b :: t) : s.atEnd = false := by
  have := pos_lt_of_drop h
  simp [ByteStream.atEnd]
  omega

/-! ### Decoding the reference encoder's output -/

theorem decodeRun_encoded (w : Nat) (rbytes : List Nat) :
    ∀ (k : Nat) (sl : List Nat) (s : ByteStream) (rest : List Nat),
      sl.length = w → k + rbytes.length = w →
      s.data.drop s.pos = encodeRowRLE rbytes ++ rest →
      decodeRun w (2 * w) s (2 * k) k sl =
        some (⟨s.data, s.pos + 2 * rbytes.length⟩, sl.take k ++ rbytes, w) := by
  induction rbytes with
  | nil =>
    intro k sl s rest hsl hk hdrop
    have hkw : k = w := by simpa using hk
    subst hkw
    rw [decodeRun, if_neg (by omega)]
    have h1 : sl.take k = sl := by rw [← hsl]; exact List.take_length sl
    simp [h1]
  | cons b t ih =>
    intro k sl s rest hsl hk hdrop
    have hkw : k < w := by simp at hk; omega
    have hdrop' : s.data.drop s.pos = 0 :: (b :: (encodeRowRLE t ++ rest)) := by
      simpa [encodeRowRLE] using hdrop
    obtain ⟨hrb, hdrop1⟩ := readByte_of_drop hdrop'
    obtain ⟨hrb2, hdrop2⟩ := readByte_of_drop (s := ⟨s.data, s.pos + 1⟩) hdrop1
    rw [decodeRun, if_pos (by omega), hrb]
    have hts : toSigned8 0 = 0 := by simp [toSigned8]
    simp only [hts]
    rw [if_neg (by omega)]
    have hlit : literalRead ⟨s.data, s.pos + 1⟩ sl k ((0 : Int).toNat + 1) =
        (⟨s.data, s.pos + 1 + 1⟩, sl.set k b) := by
      simp [literalRead, hrb2]
    simp only [hlit]
    have h2k : 2 * k + 1 + ((0 : Int).toNat + 1) = 2 * (k + 1) := by omega
    have hklen : k + ((0 : Int).toNat + 1) = k + 1 := by omega
    rw [h2k, hklen]
    have hres := ih (k + 1) (sl.set k b) ⟨s.data, s.pos + 1 + 1⟩
      rest (by simpa using hsl) (by simp at hk ⊢; omega) (by simpa using hdrop2)
    rw [hres]
    have hset : sl.set k b = sl.take k ++ b :: sl.drop (k + 1) :=
      List.set_eq_take_cons_drop b (by omega)
    have htake : (sl.set k b).take (k + 1) = sl.take k ++ [b] := by
      rw [hset, List.take_append_eq_append_take]
      have h3 : (sl.take k).length = k := by
        rw [List.length_take]; omega
      rw [h3, List.take_take]
      simp [Nat.min_def]
    rw [htake]
    have hlen2 : s.pos + 1 + 1 + 2 * t.length = s.pos + 2 * (b :: t).length := by
      simp; omega
    rw [hlen2]
    simp
    omega

theorem readLengthTable_encoded (w : Nat) (h' : Nat) :
    ∀ (s : ByteStream) (acc : List Nat) (rest : List Nat),
      rest ≠ [] →
      s.data.drop s.pos = rleLengthTable w h' ++ rest →
      readLengthTable s h' acc =
        some (acc ++ List.replicate h' (2 * w), ⟨s.data, s.pos + 2 * h'⟩) ∧
      s.data.drop (s.pos + 2 * h') = rest := by
  induction h' with
  | zero =>
    intro s acc rest hne hdrop
    simp [readLengthTable]
    simpa [rleLengthTable] using hdrop
  | succ n ih =>
    intro s acc rest hne hdrop
    have hdrop' : s.data.drop s.pos =
        (2 * w / 256) :: ((2 * w % 256) :: (rleLengthTable w n ++ rest)) := by
      simpa [rleLengthTable] using hdrop
    obtain ⟨hr16, hdrop2⟩ := readU16_of_drop hdrop'
    have hval : 2 * w / 256 * 256 + 2 * w % 256 = 2 * w := by omega
    have hae := atEnd_false_of_drop hdrop'
    have hres := ih ⟨s.data, s.pos + 2⟩ (acc ++ [2 * w]) rest hne (by simpa using hdrop2)
    refine ⟨?_, ?_⟩
    · rw [readLengthTable]
      simp only [hae, Bool.false_eq_true, if_false, hr16, hval]
      rw [hres.1]
      have hrep : acc ++ [2 * w] ++ List.replicate n (2 * w) =
          acc ++ List.replicate (n + 1) (2 * w) := by
        rw [List.append_assoc, List.replicate_succ]
        simp
      rw [hrep]
      have hpos : s.pos + 2 + 2 * n = s.pos + 2 * (n + 1) := by omega
      rw [hpos]
    · have hpos : s.pos + 2 + 2 * n = s.pos + 2 * (n + 1) := by omega
      have h2 := hres.2
      simpa [hpos] using h2

/-! ### The scanline transfer loop -/

theorem transferScanLine_spec (y w : Nat) :
    ∀ (n x : Nat) (c sl : List Nat), w - x = n →
      x ≤ w → sl.length = w → y * w + w ≤ c.length →
      transferScanLine c sl y w x =
        c.take (y * w + x) ++ sl.drop x ++ c.drop (y * w + w) := by
  intro n
  induction n with
  | zero =>
    intro x c sl hn hx hsl hc
    have hxw : x = w := by omega
    subst hxw
    rw [transferScanLine, if_neg (by omega)]
    have h1 : sl.drop x = [] := List.drop_eq_nil_of_le (by omega)
    rw [h1]
    simp
  | succ n ihn =>
    intro x c sl hn hx hsl hc
    have hxw : x < w := by omega
    rw [transferScanLine, if_pos hxw]
    have hidx : y * w + x < c.length := by omega
    have hres := ihn (x + 1) (c.set (y * w + x) (sl.getD x 0)) sl
      (by omega) (by omega) hsl (by simp; omega)
    rw [hres]
    have hcset : c.set (y * w + x) (sl.getD x 0) =
        c.take (y * w + x) ++ sl.getD x 0 :: c.drop (y * w + x + 1) :=
      List.set_eq_take_cons_drop _ hidx
    have hlt : (c.take (y * w + x)).length = y * w + x := by
      rw [List.length_take]; omega
    have htake : (c.set (y * w + x) (sl.getD x 0)).take (y * w + (x + 1)) =
        c.take (y * w + x) ++ [sl.getD x 0] := by
      rw [hcset, List.take_append_eq_append_take, hlt, List.take_take]
      have h4 : min (y * w + (x + 1)) (y * w + x) = y * w + x := by omega
      have h5 : y * w + (x + 1) - (y * w + x) = 1 := by omega
      rw [h4, h5]
      simp
    have hdropc : (c.set (y * w + x) (sl.getD x 0)).drop (y * w + w) =
        c.drop (y * w + w) := by
      rw [hcset, List.drop_append_eq_append_drop, hlt]
      have h4 : (c.take (y * w + x)).drop (y * w + w) = [] :=
        List.drop_eq_nil_of_le (by rw [hlt]; omega)
      have h5 : y * w + w - (y * w + x) = n + 1 := by omega
      rw [h4, h5, List.drop_succ_cons, List.drop_drop]
      have h6 : y * w + x + 1 + n = y * w + w := by omega
      rw [h6]
      simp
    rw [htake, hdropc]
    have hslx : sl.drop x = sl.getD x 0 :: sl.drop (x + 1) := by
      have hx2 : x < sl.length := by omega
      rw [List.drop_eq_getElem_cons hx2]
      simp [List.getD_eq_getElem?_getD, List.getElem?_eq_getElem hx2]
    rw [hslx]
    simp

/-! ### Decoding the whole encoded stream -/

theorem decodeLines_encoded (w h : Nat) (plane : List Nat)
    (hplane : plane.length = w * h) :
    ∀ (n y : Nat) (channel : List Nat) (s : ByteStream), h - y = n →
      y ≤ h → channel.length = w * h →
      s.data.drop s.pos = rleBody w (plane.drop (y * w)) (h - y) →
      decodeLines w h (List.replicate h (2 * w)) s y channel =
        some (channel.take (y * w) ++ plane.drop (y * w)) := by
  have hcomm : w * h = h * w := Nat.mul_comm w h
  intro n
  induction n with
  | zero =>
    intro y channel s hn hy hch hdrop
    have hyh : y = h := by omega
    subst hyh
    rw [decodeLines, if_neg (by omega)]
    have h1 : plane.drop (y * w) = [] := List.drop_eq_nil_of_le (by omega)
    have h2 : channel.take (y * w) = channel := List.take_of_length_le (by omega)
    simp [h1, h2]
  | succ n ihn =>
    intro y channel s hn hy hch hdrop
    have hyh : y < h := by omega
    have hmul : (y + 1) * w ≤ h * w := Nat.mul_le_mul_right w hyh
    have hmul2 : (y + 1) * w = y * w + w := by rw [Nat.succ_mul]
    rw [decodeLines, if_pos hyh]
    have hget : (List.replicate h (2 * w)).getD y 0 = 2 * w := by
      simp [List.getD_eq_getElem?_getD, List.getElem?_replicate_of_lt hyh]
    rw [hget]
    have hlenrow : ((plane.drop (y * w)).take w).length = w := by
      rw [List.length_take, List.length_drop, hplane]
      omega
    rw [hn] at hdrop
    have hbody : rleBody w (plane.drop (y * w)) (n + 1) =
        encodeRowRLE ((plane.drop (y * w)).take w) ++
          rleBody w ((plane.drop (y * w)).drop w) n := rfl
    rw [hbody] at hdrop
    have hdec := decodeRun_encoded w ((plane.drop (y * w)).take w) 0
      (List.replicate w 0) s (rleBody w ((plane.drop (y * w)).drop w) n)
      (by simp) (by simpa using hlenrow) hdrop
    rw [show (2 : Nat) * 0 = 0 from rfl] at hdec
    rw [hdec]
    have htr := transferScanLine_spec y w w 0 channel
      ((plane.drop (y * w)).take w) (by omega) (by omega) hlenrow (by omega)
    simp only [List.take_nil, List.nil_append, List.take_zero, List.drop_zero,
      Nat.add_zero] at htr ⊢
    rw [htr]
    have hch2 : (channel.take (y * w) ++ (plane.drop (y * w)).take w ++
        channel.drop (y * w + w)).length = w * h := by
      simp [List.length_take, List.length_drop, hlenrow]
      omega
    have hdrop2 : s.data.drop (s.pos + 2 * w) =
        rleBody w (plane.drop ((y + 1) * w)) (h - (y + 1)) := by
      have hd : s.data.drop (s.pos + 2 * w) =
          (s.data.drop s.pos).drop (2 * w) := by
        rw [List.drop_drop]
      rw [hd, hdrop]
      have hl : (encodeRowRLE ((plane.drop (y * w)).take w)).length = 2 * w := by
        rw [encodeRowRLE_length, hlenrow]
      rw [List.drop_left' hl, List.drop_drop]
      have he : h - (y + 1) = n := by omega
      rw [he, hmul2]
    have hlen3 : ((plane.drop (y * w)).take w).length = w := hlenrow
    have hres := ihn (y + 1)
      (channel.take (y * w) ++ (plane.drop (y * w)).take w ++ channel.drop (y * w + w))
      ⟨s.data, s.pos + 2 * ((plane.drop (y * w)).take w).length⟩
      (by omega) (by omega) hch2 (by rw [hlen3]; exact hdrop2)
    rw [hres]
    have htk : (channel.take (y * w) ++ (plane.drop (y * w)).take w ++
        channel.drop (y * w + w)).take ((y + 1) * w) =
        channel.take (y * w) ++ (plane.drop (y * w)).take w := by
      apply List.take_left'
      simp [List.length_take, hlenrow]
      omega
    rw [htk]
    have hpl : (plane.drop (y * w)).take w ++ plane.drop ((y + 1) * w) =
        plane.drop (y * w) := by
      rw [hmul2, ← List.drop_drop]
      exact List.take_append_drop w (plane.drop (y * w))
    rw [List.append_assoc, hpl]

/-- **C1**: for every plane of `width * height` bytes with positive width
and height (width small enough that the reference encoder's 16-bit length
table is well formed), decoding the reference encoder's output with the
RLE codec `uncompressRLE` reproduces the original plane exactly. -/
theorem rle_reference_roundtrip (w h : Nat) (plane : List Nat)
    (hw : 0 < w) (hw16 : w ≤ 32767) (hh : 0 < h)
    (hlen : plane.length = w * h) (_hbytes : ∀ b ∈ plane, b < 256) :
    uncompressRLE w h (compressRLEref w h plane) = plane := by
  unfold uncompressRLE compressRLEref
  have hbody_ne : rleBody w plane h ≠ [] := by
    obtain ⟨m, hm⟩ : ∃ m, h = m + 1 := ⟨h - 1, by omega⟩
    subst hm
    have hle : w ≤ plane.length := by
      rw [hlen]
      exact Nat.le_mul_of_pos_right w (by omega)
    cases hpt : plane.take w with
    | nil =>
      exfalso
      have h1 := congrArg List.length hpt
      rw [List.length_take, Nat.min_eq_left hle] at h1
      simp at h1
      omega
    | cons b t =>
      simp [rleBody, hpt, encodeRowRLE]
  have hdrop0 : (⟨rleLengthTable w h ++ rleBody w plane h, 0⟩ : ByteStream).data.drop
      (⟨rleLengthTable w h ++ rleBody w plane h, 0⟩ : ByteStream).pos =
      rleLengthTable w h ++ rleBody w plane h := rfl
  obtain ⟨htbl, hdrop1⟩ := readLengthTable_encoded w h
    ⟨rleLengthTable w h ++ rleBody w plane h, 0⟩ [] (rleBody w plane h) hbody_ne hdrop0
  rw [htbl]
  have hdl := decodeLines_encoded w h plane hlen h 0
    (List.replicate (w * h) 0)
    ⟨rleLengthTable w h ++ rleBody w plane h, 0 + 2 * h⟩
    (by omega) (by omega) (by simp)
    (by
      have h0 : (0 : Nat) * w = 0 := by omega
      rw [h0, List.drop_zero]
      have hh0 : h - 0 = h := by omega
      rw [hh0]
      exact hdrop1)
  simp only [List.nil_append]
  rw [hdl]
  simp

/-- Witness for `rle_reference_roundtrip` at a concrete 2 by 2 plane. -/
theorem rle_reference_roundtrip_witness :
    0 < 2 ∧ 2 ≤ 32767 ∧ 0 < 2 ∧ ([10, 20, 30, 40] : List Nat).length = 2 * 2 ∧
      (∀ b ∈ ([10, 20, 30, 40] : List Nat), b < 256) ∧
      uncompressRLE 2 2 (compressRLEref 2 2 [10, 20, 30, 40]) = [10, 20, 30, 40] :=
  ⟨by decide, by decide, by decide, by decide, by decide,
    rle_reference_roundtrip 2 2 [10, 20, 30, 40] (by decide) (by decide) (by decide)
      (by decide) (by decide)⟩

/-! ### Size and zero-fill invariants of the decoder -/

theorem repeatWrite_length (data : Nat) :
    ∀ (n pos : Nat) (sl : List Nat), (repeatWrite sl pos data n).length = sl.length := by
  intro n
  induction n with
  | zero => intro pos sl; simp [repeatWrite]
  | succ m ih => intro pos sl; simp [repeatWrite, ih]

theorem repeatWrite_getD_ge (data : Nat) :
    ∀ (n pos k : Nat) (sl : List Nat), pos + n ≤ k →
      (repeatWrite sl pos data n).getD k 0 = sl.getD k 0 := by
  intro n
  induction n with
  | zero => intro pos k sl hk; simp [repeatWrite]
  | succ m ih =>
    intro pos k sl hk
    rw [show repeatWrite sl pos data (m + 1) =
      repeatWrite (sl.set pos data) (pos + 1) data m from rfl]
    rw [ih (pos + 1) k _ (by omega)]
    simp [List.getD_eq_getElem?_getD, List.getElem?_set_ne (show pos ≠ k by omega)]

theorem literalRead_length :
    ∀ (n : Nat) (s : ByteStream) (pos : Nat) (sl : List Nat),
      (literalRead s sl pos n).2.length = sl.length := by
  intro n
  induction n with
  | zero => intro s pos sl; simp [literalRead]
  | succ m ih => intro s pos sl; simp [literalRead, ih]

theorem literalRead_getD_ge :
    ∀ (n : Nat) (s : ByteStream) (pos k : Nat) (sl : List Nat), pos + n ≤ k →
      (literalRead s sl pos n).2.getD k 0 = sl.getD k 0 := by
  intro n
  induction n with
  | zero => intro s pos k sl hk; simp [literalRead]
  | succ m ih =>
    intro s pos k sl hk
    rw [show literalRead s sl pos (m + 1) =
      literalRead (readByte s).2 (sl.set pos (readByte s).1) (pos + 1) m from rfl]
    rw [ih _ (pos + 1) k _ (by omega)]
    simp [List.getD_eq_getElem?_getD, List.getElem?_set_ne (show pos ≠ k by omega)]

theorem decodeRun_some_inv (width target : Nat) :
    ∀ (fuel : Nat) (s : ByteStream) (i pos : Nat) (sl : List Nat)
      (s' : ByteStream) (sl' : List Nat) (p' : Nat),
      target - i ≤ fuel → pos ≤ width →
      decodeRun width target s i pos sl = some (s', sl', p') →
      sl'.length = sl.length ∧ pos ≤ p' ∧ p' ≤ width ∧
        ∀ k, p' ≤ k → sl'.getD k 0 = sl.getD k 0 := by
  intro fuel
  induction fuel with
  | zero =>
    intro s i pos sl s' sl' p' hfuel hpw heq
    have hlt : ¬ i < target := by omega
    rw [decodeRun, if_neg hlt] at heq
    simp at heq
    obtain ⟨h1, h2, h3⟩ := heq
    subst h2
    subst h3
    exact ⟨rfl, Nat.le_refl _, hpw, fun k _ => rfl⟩
  | succ m ih =>
    intro s i pos sl s' sl' p' hfuel hpw heq
    by_cases hlt : i < target
    · rw [decodeRun, if_pos hlt] at heq
      simp only [] at heq
      by_cases hneg : toSigned8 (readByte s).1 < 0
      · rw [if_pos hneg] at heq
        by_cases hover : width < (1 - toSigned8 (readByte s).1).toNat + pos
        · rw [if_pos hover] at heq
          exact absurd heq (by simp)
        · rw [if_neg hover] at heq
          obtain ⟨h1, h2, h3, h4⟩ := ih _ _ _ _ _ _ _ (by omega) (by omega) heq
          refine ⟨by rw [h1, repeatWrite_length], by omega, h3, ?_⟩
          intro k hk
          rw [h4 k hk, repeatWrite_getD_ge _ _ _ _ _ (by omega)]
      · rw [if_neg hneg] at heq
        by_cases hover : width < (toSigned8 (readByte s).1).toNat + 1 + pos
        · rw [if_pos hover] at heq
          exact absurd heq (by simp)
        · rw [if_neg hover] at heq
          obtain ⟨h1, h2, h3, h4⟩ := ih _ _ _ _ _ _ _ (by omega) (by omega) heq
          refine ⟨by rw [h1, literalRead_length], by omega, h3, ?_⟩
          intro k hk
          rw [h4 k hk, literalRead_getD_ge _ _ _ _ _ (by omega)]
    · rw [decodeRun, if_neg hlt] at heq
      simp at heq
      obtain ⟨h1, h2, h3⟩ := heq
      subst h2
      subst h3
      exact ⟨rfl, Nat.le_refl _, hpw, fun k _ => rfl⟩

theorem getD_append_left_seg {a b : List Nat} {j : Nat} (hj : j < a.length) :
    (a ++ b).getD j 0 = a.getD j 0 := by
  simp [List.getD_eq_getElem?_getD, List.getElem?_append_left hj]

theorem getD_append_right_seg {a b : List Nat} {j : Nat} (hj : a.length ≤ j) :
    (a ++ b).getD j 0 = b.getD (j - a.length) 0 := by
  simp [List.getD_eq_getElem?_getD, List.getElem?_append_right hj]

theorem decodeLines_inv (w h : Nat) (tbl : List Nat) :
    ∀ (n y : Nat) (s : ByteStream) (channel ch2 : List Nat), h - y ≤ n →
      channel.length = w * h →
      decodeLines w h tbl s y channel = some ch2 →
      ch2.length = w * h ∧
      (∀ j, j < y * w → ch2.getD j 0 = channel.getD j 0) ∧
      ∃ ss : List ByteStream, ss.length = (h - y) + 1 ∧
        ss.getD 0 (⟨[], 0⟩ : ByteStream) = s ∧
        ∀ y2, y ≤ y2 → y2 < h → ∃ sl p,
          decodeRun w (tbl.getD y2 0) (ss.getD (y2 - y) (⟨[], 0⟩ : ByteStream))
              0 0 (List.replicate w 0)
            = some (ss.getD (y2 - y + 1) (⟨[], 0⟩ : ByteStream), sl, p) ∧
          p ≤ w ∧
          (∀ k, k < w → ch2.getD (y2 * w + k) 0 = sl.getD k 0) ∧
          ∀ k, p ≤ k → k < w → sl.getD k 0 = 0 := by
  intro n
  induction n with
  | zero =>
    intro y s channel ch2 hn hch heq
    have hyh : ¬ y < h := by omega
    rw [decodeLines, if_neg hyh] at heq
    simp at heq
    subst heq
    exact ⟨hch, fun j _ => rfl,
      ⟨[s], by simp; omega, rfl, fun y2 hy2 hy2h => absurd hy2h (by omega)⟩⟩
  | succ m ih =>
    intro y s channel ch2 hn hch heq
    by_cases hyh : y < h
    · rw [decodeLines, if_pos hyh] at heq
      cases hdr : decodeRun w (tbl.getD y 0) s 0 0 (List.replicate w 0) with
      | none =>
        rw [hdr] at heq
        simp at heq
      | some res =>
        obtain ⟨s', sl', p'⟩ := res
        rw [hdr] at heq
        simp only [] at heq
        obtain ⟨hlen', hp0, hpw, hzero⟩ := decodeRun_some_inv w (tbl.getD y 0)
          (tbl.getD y 0) s 0 0 (List.replicate w 0) s' sl' p'
          (by omega) (by omega) hdr
        have hsl'len : sl'.length = w := by rw [hlen']; simp
        have hmul2 : (y + 1) * w = y * w + w := by rw [Nat.succ_mul]
        have hywW : y * w + w ≤ channel.length := by
          rw [hch]
          have h1 : (y + 1) * w ≤ h * w := Nat.mul_le_mul_right w hyh
          have hc : w * h = h * w := Nat.mul_comm w h
          omega
        have htr := transferScanLine_spec y w w 0 channel sl'
          (by omega) (by omega) hsl'len hywW
        simp only [Nat.add_zero, List.drop_zero] at htr
        rw [htr] at heq
        have htakelen : (channel.take (y * w)).length = y * w := by
          rw [List.length_take]
          omega
        have hch1len : (channel.take (y * w) ++ sl' ++
            channel.drop (y * w + w)).length = w * h := by
          simp only [List.length_append, List.length_drop, htakelen, hsl'len]
          omega
        have hcatlen : (channel.take (y * w) ++ sl').length = y * w + w := by
          simp only [List.length_append, htakelen, hsl'len]
        obtain ⟨ih1, ih2, ss', hss'len, hss'0, hss'line⟩ := ih (y + 1) s'
          (channel.take (y * w) ++ sl' ++ channel.drop (y * w + w)) ch2
          (by omega) hch1len heq
        refine ⟨ih1, ?_, ⟨s :: ss', by simp [hss'len]; omega, rfl, ?_⟩⟩
        · intro j hj
          rw [ih2 j (by omega)]
          rw [getD_append_left_seg (by omega), getD_append_left_seg (by omega)]
          simp [List.getD_eq_getElem?_getD, List.getElem?_take_of_lt hj]
        · intro y2 hy2 hy2h
          by_cases hy2y : y2 = y
          · subst hy2y
            have e1 : (s :: ss').getD (y2 - y2) (⟨[], 0⟩ : ByteStream) = s := by
              simp
            have e2 : (s :: ss').getD (y2 - y2 + 1) (⟨[], 0⟩ : ByteStream)
                = ss'.getD 0 (⟨[], 0⟩ : ByteStream) := by
              simp
            refine ⟨sl', p', ?_, hpw, ?_, ?_⟩
            · rw [e1, e2, hss'0]
              exact hdr
            · intro k hkw
              rw [ih2 (y2 * w + k) (by omega)]
              rw [getD_append_left_seg (by omega)]
              rw [getD_append_right_seg (by omega)]
              rw [htakelen]
              have hidx : y2 * w + k - y2 * w = k := by omega
              rw [hidx]
            · intro k hk hkw
              rw [hzero k hk]
              simp [List.getD_eq_getElem?_getD, List.getElem?_replicate, hkw]
          · obtain ⟨sl, p, hdr2, hpw2, heqv, hz⟩ :=
              hss'line y2 (by omega) hy2h
            have e1 : y2 - y = y2 - (y + 1) + 1 := by omega
            rw [e1, List.getD_cons_succ, List.getD_cons_succ]
            exact ⟨sl, p, hdr2, hpw2, heqv, hz⟩
    · rw [decodeLines, if_neg hyh] at heq
      simp at heq
      subst heq
      exact ⟨hch, fun j _ => rfl,
        ⟨[s], by simp; omega, rfl, fun y2 hy2 hy2h => absurd hy2h (by omega)⟩⟩

theorem uncompressRLE_size_zero_aux (w h : Nat) (c : List Nat) :
    uncompressRLE w h c = [] ∨
    ((uncompressRLE w h c).length = w * h ∧
      ∃ tbl s0, readLengthTable ⟨c, 0⟩ h [] = some (tbl, s0) ∧
      ∃ ss : List ByteStream, ss.length = h + 1 ∧
        ss.getD 0 (⟨[], 0⟩ : ByteStream) = s0 ∧
        ∀ y, y < h → ∃ sl p,
          decodeRun w (tbl.getD y 0) (ss.getD y (⟨[], 0⟩ : ByteStream))
              0 0 (List.replicate w 0)
            = some (ss.getD (y + 1) (⟨[], 0⟩ : ByteStream), sl, p) ∧
          p ≤ w ∧
          (∀ k, k < w →
            (uncompressRLE w h c).getD (y * w + k) 0 = sl.getD k 0) ∧
          ∀ k, p ≤ k → k < w → sl.getD k 0 = 0) := by
  rcases htbl : readLengthTable ⟨c, 0⟩ h [] with _ | ⟨tbl, s⟩
  · left
    unfold uncompressRLE
    rw [htbl]
  · rcases hdl : decodeLines w h tbl s 0 (List.replicate (w * h) 0) with _ | ch
    · left
      unfold uncompressRLE
      rw [htbl]
      simp only []
      rw [hdl]
    · right
      have hx : uncompressRLE w h c = ch := by
        unfold uncompressRLE
        rw [htbl]
        simp only []
        rw [hdl]
      rw [hx]
      obtain ⟨h1, _h2, ss, hsslen, hss0, hssline⟩ := decodeLines_inv w h tbl h 0 s
        (List.replicate (w * h) 0) ch (by omega) (by simp) hdl
      simp only [Nat.sub_zero] at hsslen hssline
      exact ⟨h1, tbl, s, rfl, ss, hsslen, hss0,
        fun y hy => hssline y (by omega) hy⟩

/-- **C10**: for every width, height and compressed input, the RLE decoder
returns either the empty byte array (failure) or a byte array of exactly
`width * height` bytes whose scanline `y` is exactly the fresh
zero-initialised scanline buffer as left by that line's run-decode loop:
the loop (`decodeRun`, digesting the real stream states chained from the
length table through the preceding scanlines) ends at final write
position `p ≤ width`, and every scanline position from `p` on — the
positions not written by any run — still holds the buffer's initial
zero; it never returns a non-empty array of any other size. -/
theorem rle_result_empty_or_exact_size (w h : Nat) (c : List Nat) :
    uncompressRLE w h c = [] ∨
    ((uncompressRLE w h c).length = w * h ∧
      ∃ tbl s0, readLengthTable ⟨c, 0⟩ h [] = some (tbl, s0) ∧
      ∃ ss : List ByteStream, ss.length = h + 1 ∧
        ss.getD 0 (⟨[], 0⟩ : ByteStream) = s0 ∧
        ∀ y, y < h → ∃ sl p,
          decodeRun w (tbl.getD y 0) (ss.getD y (⟨[], 0⟩ : ByteStream))
              0 0 (List.replicate w 0)
            = some (ss.getD (y + 1) (⟨[], 0⟩ : ByteStream), sl, p) ∧
          p ≤ w ∧
          (∀ k, k < w →
            (uncompressRLE w h c).getD (y * w + k) 0 = sl.getD k 0) ∧
          ∀ k, p ≤ k → k < w → sl.getD k 0 = 0) :=
  uncompressRLE_size_zero_aux w h c

theorem readU16_snd (s : ByteStream) : (readU16 s).2 = ⟨s.data, s.pos + 2⟩ := by
  rw [readU16]
  split <;> rfl

theorem readLengthTable_none (h' : Nat) :
    ∀ (s : ByteStream) (acc : List Nat),
      (∃ i, i < h' ∧ s.data.length ≤ s.pos + 2 * i) →
      readLengthTable s h' acc = none := by
  induction h' with
  | zero =>
    intro s acc ⟨i, hi, _⟩
    omega
  | succ n ih =>
    intro s acc ⟨i, hi, hle⟩
    by_cases hae : s.data.length ≤ s.pos
    · simp [readLengthTable, ByteStream.atEnd, hae]
    · have hi0 : i ≠ 0 := by intro h0; subst h0; simp at hle; omega
      obtain ⟨j, hj⟩ : ∃ j, i = j + 1 := ⟨i - 1, by omega⟩
      subst hj
      rw [readLengthTable]
      simp only [ByteStream.atEnd, decide_eq_true_eq, if_neg hae]
      rw [readU16_snd]
      exact ih _ _ ⟨j, by omega, by simp; omega⟩

theorem uncompressRLE_truncated_table (w h : Nat) (c : List Nat)
    (hh : 0 < h) (hlen : c.length + 2 ≤ 2 * h) :
    uncompressRLE w h c = [] := by
  unfold uncompressRLE
  rw [readLengthTable_none h ⟨c, 0⟩ [] ⟨h - 1, by omega, by simp; omega⟩]

theorem decodeRun_overflow (width target : Nat) (s : ByteStream)
    (i pos : Nat) (sl : List Nat) (hi : i < target)
    (hover : if toSigned8 (readByte s).1 < 0
      then width < (1 - toSigned8 (readByte s).1).toNat + pos
      else width < (toSigned8 (readByte s).1).toNat + 1 + pos) :
    decodeRun width target s i pos sl = none := by
  rw [decodeRun, if_pos hi]
  simp only []
  by_cases hneg : toSigned8 (readByte s).1 < 0
  · rw [if_pos hneg] at hover
    rw [if_pos hneg, if_pos hover]
  · rw [if_neg hneg] at hover
    rw [if_neg hneg, if_pos hover]

theorem rleChannelDecode_some_length (w h : Nat) (c out : List Nat)
    (heq : rleChannelDecode w h c = some out) : out.length = w * h := by
  unfold rleChannelDecode at heq
  simp only [] at heq
  split at heq
  · exact absurd heq (by simp)
  · rename_i hcond
    obtain rfl : uncompressRLE w h c = out := by
      simpa using heq
    omega

/-- Counterexample to **C5** as stated: this compressed stream for a
2 by 1 plane is exhausted in the middle of a literal run (the run's
payload byte is missing, and the scanline's declared compressed length 4
exceeds the single available data byte), yet the decode succeeds —
past-the-end reads deliver zero bytes — and the layer decode accepts the
resulting plane instead of reporting `DecodeFailed`. -/
theorem rle_truncated_midrun_not_detected :
    uncompressRLE 2 1 [0, 4, 0] = [0, 0] ∧
      rleChannelDecode 2 1 [0, 4, 0] = some [0, 0] := by
  constructor <;>
    simp [uncompressRLE, rleChannelDecode, readLengthTable, readU16,
      ByteStream.atEnd, decodeLines, decodeRun, readByte, toSigned8,
      literalRead, repeatWrite, transferScanLine]

/-- **C5** (amended): of the three claimed failure modes, a run that would
write past the scanline's declared width aborts the decode (`none` from
the run decoder, hence the empty array), a length table cut short is
reported as failure, and a final decoded size different from
`width * height` is rejected by `loadPSDLayer`'s size check — but a
compressed stream exhausted mid-run is not itself detected (reads past
the end yield zero bytes and the decode can succeed, see the
counterexample). -/
theorem rle_failure_modes_amended :
    (∀ (w h : Nat) (c : List Nat), 0 < h → c.length + 2 ≤ 2 * h →
      uncompressRLE w h c = []) ∧
    (∀ (width target : Nat) (s : ByteStream) (i pos : Nat) (sl : List Nat),
      i < target →
      (if toSigned8 (readByte s).1 < 0
        then width < (1 - toSigned8 (readByte s).1).toNat + pos
        else width < (toSigned8 (readByte s).1).toNat + 1 + pos) →
      decodeRun width target s i pos sl = none) ∧
    (∀ (w h : Nat) (c out : List Nat), rleChannelDecode w h c = some out →
      out.length = w * h) :=
  ⟨uncompressRLE_truncated_table, decodeRun_overflow, rleChannelDecode_some_length⟩

/-- Witness for `rle_failure_modes_amended` at concrete inputs: a one-byte
stream for a 2-scanline plane fails the table read, and a control byte of
−2 (a 3-byte repeat) at scanline position 1 of a 3-wide line overflows. -/
theorem rle_failure_modes_amended_witness :
    (0 < 2 ∧ ([9] : List Nat).length + 2 ≤ 2 * 2 ∧ uncompressRLE 3 2 [9] = []) ∧
      (0 < 4 ∧ decodeRun 3 4 ⟨[254, 5], 0⟩ 0 1 [0, 0, 0] = none) :=
  ⟨⟨by decide, by decide, rle_failure_modes_amended.1 3 2 [9] (by decide) (by decide)⟩,
    ⟨by decide, rle_failure_modes_amended.2.1 3 4 ⟨[254, 5], 0⟩ 0 1 [0, 0, 0]
      (by decide) (by simp [readByte, toSigned8])⟩⟩

theorem readU32_snd (s : ByteStream) : (readU32 s).2 = ⟨s.data, s.pos + 4⟩ := by
  rw [readU32]
  split <;> rfl

theorem readPSDAdditionalLayerInfo_stream (s : ByteStream) :
    (readPSDAdditionalLayerInfo s).2.data = s.data ∧
      s.pos + 4 ≤ (readPSDAdditionalLayerInfo s).2.pos := by
  rw [readPSDAdditionalLayerInfo]
  split <;> simp [readU32_snd]

/-- **C2**: the code rejects a block tagged with the second recognized
magic.  The block reader `operator>>` accepts both magics and fully reads
the 8B64-tagged block below, but the scanner compares the signature
against `8BIM` alone (src/main.cpp line 389), so the scan fails with the
invalid-signature diagnosis instead of accepting the block and
continuing. -/
theorem scan_8B64_block_rejected :
    scanAdditionalLayerInfo
      ⟨[0x38, 0x62, 0x36, 0x34, 0x4C, 0x72, 0x31, 0x36, 0, 0, 0, 0], 0⟩ 12 =
      .error .invalidSignature := by
  rw [scanAdditionalLayerInfo]
  norm_num [readPSDAdditionalLayerInfo, readU32, psdSignature8BIM,
    psdSignature8B64, ByteStream.atEnd, psdAdditionalLayerInfoDataOffset]

/-- Counterexample to **C3** as stated: with budget 12 and a valid
8BIM-tagged block of payload length 4, the block consumes
`4 + 0 + 12 = 16` bytes, the budget becomes `-4`, and the scan exits its
loop returning success with that negative final budget instead of failing
with `BudgetUnderrun`. -/
theorem scan_negative_budget_succeeds :
    scanAdditionalLayerInfo
      ⟨[0x38, 0x42, 0x49, 0x4D, 0x4C, 0x72, 0x31, 0x36,
        0, 0, 0, 4, 1, 2, 3, 4], 0⟩ 12 =
      .ok (⟨[0x38, 0x42, 0x49, 0x4D, 0x4C, 0x72, 0x31, 0x36,
        0, 0, 0, 4, 1, 2, 3, 4], 16⟩, -4) := by
  rw [scanAdditionalLayerInfo]
  norm_num [readPSDAdditionalLayerInfo, readU32, psdSignature8BIM,
    psdSignature8B64, ByteStream.atEnd, psdAdditionalLayerInfoDataOffset,
    psdAdditionalLayerInfoSize, skipBytes]
  rw [scanAdditionalLayerInfo]
  norm_num

theorem scan_budget_too_small (s : ByteStream) (B : Int)
    (h1 : 0 < B) (h2 : B < 8) :
    scanAdditionalLayerInfo s B = .error .budgetTooSmall := by
  rw [scanAdditionalLayerInfo, if_pos h1, if_pos
    (by simp [psdAdditionalLayerInfoDataOffset]; omega)]

theorem scan_ok_budget_nonpos :
    ∀ (fuel : Nat) (s : ByteStream) (B : Int) (s' : ByteStream) (B' : Int),
      s.data.length - s.pos ≤ fuel →
      scanAdditionalLayerInfo s B = .ok (s', B') → B' ≤ 0 := by
  intro fuel
  induction fuel with
  | zero =>
    intro s B s' B' hf heq
    by_cases hB : B > 0
    · rw [scanAdditionalLayerInfo, if_pos hB] at heq
      by_cases h8 : B < (psdAdditionalLayerInfoDataOffset : Int)
      · rw [if_pos h8] at heq
        exact absurd heq (by simp)
      · rw [if_neg h8] at heq
        have hae : s.atEnd = true := by
          simp [ByteStream.atEnd]
          omega
        rw [if_pos hae] at heq
        exact absurd heq (by simp)
    · rw [scanAdditionalLayerInfo, if_neg hB] at heq
      simp at heq
      omega
  | succ m ih =>
    intro s B s' B' hf heq
    by_cases hB : B > 0
    · rw [scanAdditionalLayerInfo, if_pos hB] at heq
      by_cases h8 : B < (psdAdditionalLayerInfoDataOffset : Int)
      · rw [if_pos h8] at heq
        exact absurd heq (by simp)
      · rw [if_neg h8] at heq
        by_cases hae : s.atEnd = true
        · rw [if_pos hae] at heq
          exact absurd heq (by simp)
        · rw [if_neg hae] at heq
          simp only [] at heq
          by_cases hsig : (readPSDAdditionalLayerInfo s).1.signature ≠ psdSignature8BIM
          · rw [if_pos hsig] at heq
            exact absurd heq (by simp)
          · rw [if_neg hsig] at heq
            obtain ⟨hdata, hpos⟩ := readPSDAdditionalLayerInfo_stream s
            have hlt : s.pos < s.data.length := by
              simp [ByteStream.atEnd] at hae
              omega
            refine ih _ _ _ _ ?_ heq
            simp only [skipBytes, hdata]
            omega
    · rw [scanAdditionalLayerInfo, if_neg hB] at heq
      simp at heq
      omega

/-- **C3** (amended): the scan fails with the budget diagnosis whenever
fewer than the minimum header size (8 bytes) remains while the budget is
still positive, and success always carries a final budget of at most 0;
but when the budget becomes negative after subtracting a block's consumed
bytes, the loop merely exits: the scan returns success with that negative
final budget (see the counterexample) instead of failing. -/
theorem scan_budget_underrun_amended :
    (∀ (s : ByteStream) (B : Int), 0 < B → B < 8 →
      scanAdditionalLayerInfo s B = .error .budgetTooSmall) ∧
    (∀ (s : ByteStream) (B : Int) (s' : ByteStream) (B' : Int),
      scanAdditionalLayerInfo s B = .ok (s', B') → B' ≤ 0) :=
  ⟨scan_budget_too_small,
    fun s B s' B' heq =>
      scan_ok_budget_nonpos (s.data.length - s.pos) s B s' B'
        (Nat.le_refl _) heq⟩

/-- Witness for `scan_budget_underrun_amended`: budget 5 on an empty
stream fails with the budget diagnosis, and the success at budget `-3`
indeed carries a non-positive final budget. -/
theorem scan_budget_underrun_amended_witness :
    ((0 : Int) < 5 ∧ (5 : Int) < 8 ∧
      scanAdditionalLayerInfo ⟨[], 0⟩ 5 = .error .budgetTooSmall) ∧
      ((-3 : Int) ≤ 0) :=
  ⟨⟨by norm_num, by norm_num,
      scan_budget_underrun_amended.1 ⟨[], 0⟩ 5 (by norm_num) (by norm_num)⟩,
    scan_budget_underrun_amended.2 ⟨[], 0⟩ (-3) ⟨[], 0⟩ (-3)
      (by rw [scanAdditionalLayerInfo]; norm_num)⟩

/-- **C4**: the claim (and the format convention) says a control byte of
exactly −128 is a no-op contributing zero output bytes; the code instead
computes `1 - (-128) = 129` — beyond the maximum legal 128-byte run — and
here fails its width check, returning the empty array (`DecodeFailed`)
for a scanline that should decode fine. -/
theorem rle_neg128_treated_as_129_run :
    toSigned8 0x80 = -128 ∧ (1 - toSigned8 0x80).toNat = 129 ∧
      uncompressRLE 3 1 [0, 2, 0x80, 5] = [] := by
  refine ⟨by decide, by decide, ?_⟩
  simp [uncompressRLE, readLengthTable, readU16, ByteStream.atEnd,
    decodeLines, decodeRun, readByte, toSigned8]

theorem readChannelInfos_snd :
    ∀ (n : Nat) (s : ByteStream) (acc : List PSDChannelInfo),
      (readChannelInfos s n acc).2 = ⟨s.data, s.pos + 6 * n⟩ := by
  intro n
  induction n with
  | zero => intro s acc; simp [readChannelInfos]
  | succ m ih =>
    intro s acc
    rw [readChannelInfos]
    simp only [readU16_snd, readU32_snd, ih]
    simp
    omega

set_option maxHeartbeats 1600000 in
/-- **C6**: for every stream position at which the 4-byte section
signature following the channel descriptors differs from the recognized
magic `8BIM`, the reader stops without reading the
blend-mode/opacity/clipping/flags/filler/extra-data-length fields — they
stay at the default record's zero values — and the cursor is left exactly
just past the signature: 16 rectangle bytes, 2 channel-count bytes,
6 bytes per channel descriptor, and the 4 signature bytes. -/
theorem layer_record_bad_signature_stops (s : ByteStream)
    (hsig : (readPSDLayerRecord defaultPSDLayerRecord s).1.signature ≠
      psdSignature8BIM) :
    (readPSDLayerRecord defaultPSDLayerRecord s).1.blendModeKey = 0 ∧
    (readPSDLayerRecord defaultPSDLayerRecord s).1.opacity = 0 ∧
    (readPSDLayerRecord defaultPSDLayerRecord s).1.clipping = 0 ∧
    (readPSDLayerRecord defaultPSDLayerRecord s).1.flags = 0 ∧
    (readPSDLayerRecord defaultPSDLayerRecord s).1.filler = 0 ∧
    (readPSDLayerRecord defaultPSDLayerRecord s).1.extraDataFieldLength = 0 ∧
    (readPSDLayerRecord defaultPSDLayerRecord s).2.data = s.data ∧
    (readPSDLayerRecord defaultPSDLayerRecord s).2.pos =
      s.pos + 16 + 2 + 6 * (readPSDLayerRecord defaultPSDLayerRecord s).1.channels + 4 := by
  rcases hr : readPSDLayerRecord defaultPSDLayerRecord s with ⟨d, s2⟩
  have hr0 := hr
  rw [readPSDLayerRecord] at hr
  split at hr
  · rename_i hcond
    injection hr with h1 h2
    subst h1
    subst h2
    refine ⟨rfl, rfl, rfl, rfl, rfl, rfl, ?_, ?_⟩
    all_goals simp [readU32_snd, readU16_snd, readChannelInfos_snd,
      defaultPSDLayerRecord]
  · rename_i hcond
    simp only [not_not] at hcond
    rw [hr0] at hsig
    injection hr with h1 h2
    have hds : d.signature = psdSignature8BIM := by
      rw [← h1]
      with_reducible exact hcond
    exact (hsig hds).elim

/-- Witness for `layer_record_bad_signature_stops`: a 22-byte all-zero
stream has zero channels and signature 0 (not `8BIM`); the reader leaves
the trailing fields zero and the cursor at offset 22. -/
theorem layer_record_bad_signature_stops_witness :
    (readPSDLayerRecord defaultPSDLayerRecord ⟨List.replicate 22 0, 0⟩).1.signature ≠
      psdSignature8BIM ∧
    (readPSDLayerRecord defaultPSDLayerRecord ⟨List.replicate 22 0, 0⟩).2.pos =
      0 + 16 + 2 +
        6 * (readPSDLayerRecord defaultPSDLayerRecord ⟨List.replicate 22 0, 0⟩).1.channels + 4 :=
  ⟨by decide,
    (layer_record_bad_signature_stops ⟨List.replicate 22 0, 0⟩ (by decide)).2.2.2.2.2.2.2⟩


/-- **C7**: the LayerInfo length reconciliation (line 753) is reported but
never propagated: the mismatch flag records exactly whether the declared
length differs from `consumedLayerInfoBytes + channelImageDataSize`
(`quint32` sum), the already-parsed layer records and channel planes are
still returned to the caller, and every later step — the global layer
mask read, the scanner budget, and the additional-block scan itself — is
identical whatever the declared LayerInfo length was. -/
theorem layer_info_mismatch_nonfatal (lam a b c ch : Nat)
    (records : List PSDLayerRecord) (images : List (List Nat))
    (s : ByteStream) :
    (walkerTail lam a c ch records images s).mismatchReported =
      decide (a ≠ (c + ch) % 2 ^ 32) ∧
    (walkerTail lam a c ch records images s).records = records ∧
    (walkerTail lam a c ch records images s).images = images ∧
    (walkerTail lam a c ch records images s).globalLayerMaskInfo =
      (walkerTail lam b c ch records images s).globalLayerMaskInfo ∧
    (walkerTail lam a c ch records images s).budget =
      (walkerTail lam b c ch records images s).budget ∧
    (walkerTail lam a c ch records images s).scan =
      (walkerTail lam b c ch records images s).scan :=
  ⟨rfl, rfl, rfl, rfl, rfl, rfl⟩

/-- **C8**: for a document whose sizes fit (no `quint32` wrap), the byte
budget handed to the additional-block scanner equals
`LayerAndMaskInfo.length` minus the sum of the 4-byte LayerInfo length
field, the consumed layer-info bytes, the channel image data size, the
global layer mask info length, and its own 4-byte length field; the
2-byte channel-data alignment padding is not part of the subtraction. -/
theorem scanner_budget_formula (lam lil c ch : Nat)
    (records : List PSDLayerRecord) (images : List (List Nat))
    (s : ByteStream) (hlam : lam < 2 ^ 32)
    (hsum : 4 + c + ch +
      ((readPSDGlobalLayerMaskInfo (channelDataPaddingSkip s ch)).1.length + 4) ≤
        lam) :
    (walkerTail lam lil c ch records images s).budget =
      ((lam - (4 + c + ch +
        (readPSDGlobalLayerMaskInfo (channelDataPaddingSkip s ch)).1.length + 4)
        : Nat) : Int) ∧
    (walkerTail lam lil c ch records images s).scan =
      scanAdditionalLayerInfo
        (readPSDGlobalLayerMaskInfo (channelDataPaddingSkip s ch)).2
        (walkerTail lam lil c ch records images s).budget := by
  refine ⟨?_, rfl⟩
  show (((((((lam : Int) - (4 + c + ch)) % (2 ^ 32)).toNat : Int) -
    ((readPSDGlobalLayerMaskInfo (channelDataPaddingSkip s ch)).1.length + 4)) %
      (2 ^ 32)).toNat : Int) = _
  rw [Int.emod_eq_of_lt (by push_cast; omega) (by push_cast; omega)]
  rw [Int.toNat_of_nonneg (by push_cast; omega)]
  rw [Int.emod_eq_of_lt (by omega) (by omega)]
  rw [Int.toNat_of_nonneg (by omega)]
  omega

/-- Witness for `scanner_budget_formula` on a concrete 8-byte zero stream
(global layer mask length 0): budget `100 - (4 + 10 + 20 + 0 + 4) = 62`. -/
theorem scanner_budget_formula_witness :
    (100 < 2 ^ 32 ∧
      4 + 10 + 20 +
        ((readPSDGlobalLayerMaskInfo
          (channelDataPaddingSkip ⟨List.replicate 8 0, 0⟩ 20)).1.length + 4) ≤ 100) ∧
    (walkerTail 100 7 10 20 [] [] ⟨List.replicate 8 0, 0⟩).budget =
      ((100 - (4 + 10 + 20 +
        (readPSDGlobalLayerMaskInfo
          (channelDataPaddingSkip ⟨List.replicate 8 0, 0⟩ 20)).1.length + 4)
        : Nat) : Int) :=
  ⟨⟨by decide, by decide⟩,
    (scanner_budget_formula 100 7 10 20 [] [] ⟨List.replicate 8 0, 0⟩
      (by decide) (by decide)).1⟩

/-! ### Bit-lane arithmetic for the compositor masks -/

theorem testBit_byteMask (i : Nat) : (0xFF : Nat).testBit i = decide (i < 8) := by
  rw [show (0xFF : Nat) = 2 ^ 8 - 1 by norm_num, Nat.testBit_two_pow_sub_one]

theorem testBit_maskA (i : Nat) :
    (0x00FFFFFF : Nat).testBit i = decide (i < 24) := by
  rw [show (0x00FFFFFF : Nat) = 2 ^ 24 - 1 by norm_num,
    Nat.testBit_two_pow_sub_one]

theorem testBit_maskR (i : Nat) :
    (0xFF00FFFF : Nat).testBit i = decide (i < 16 ∨ (24 ≤ i ∧ i < 32)) := by
  rw [show (0xFF00FFFF : Nat) = 2 ^ 24 * 0xFF + 0xFFFF by norm_num,
    Nat.testBit_mul_pow_two_add _ (by norm_num)]
  split
  · rename_i hlt
    rw [show (0xFFFF : Nat) = 2 ^ 16 - 1 by norm_num,
      Nat.testBit_two_pow_sub_one]
    simp only [decide_eq_decide]
    omega
  · rename_i hge
    rw [testBit_byteMask]
    simp only [decide_eq_decide]
    omega

theorem testBit_maskG (i : Nat) :
    (0xFFFF00FF : Nat).testBit i = decide (i < 8 ∨ (16 ≤ i ∧ i < 32)) := by
  rw [show (0xFFFF00FF : Nat) = 2 ^ 16 * 0xFFFF + 0xFF by norm_num,
    Nat.testBit_mul_pow_two_add _ (by norm_num)]
  split
  · rename_i hlt
    rw [testBit_byteMask]
    simp only [decide_eq_decide]
    omega
  · rename_i hge
    rw [show (0xFFFF : Nat) = 2 ^ 16 - 1 by norm_num,
      Nat.testBit_two_pow_sub_one]
    simp only [decide_eq_decide]
    omega

theorem testBit_maskB (i : Nat) :
    (0xFFFFFF00 : Nat).testBit i = decide (8 ≤ i ∧ i < 32) := by
  rw [show (0xFFFFFF00 : Nat) = 2 ^ 8 * 0xFFFFFF + 0 by norm_num,
    Nat.testBit_mul_pow_two_add _ (by positivity)]
  split
  · rename_i hlt
    simp
    omega
  · rename_i hge
    rw [show (0xFFFFFF : Nat) = 2 ^ 24 - 1 by norm_num,
      Nat.testBit_two_pow_sub_one]
    simp only [decide_eq_decide]
    omega

theorem testBit_byte_ge {s i : Nat} (hs : s < 256) (hi : 8 ≤ i) :
    s.testBit i = false := by
  apply Nat.testBit_lt_two_pow
  calc s < 256 := hs
    _ = 2 ^ 8 := by norm_num
    _ ≤ 2 ^ i := Nat.pow_le_pow_right (by norm_num) hi

theorem lanes_updateA (p s : Nat) (hs : s < 256) :
    laneA ((p &&& 0x00FFFFFF) ||| (s <<< 24)) = s ∧
    laneR ((p &&& 0x00FFFFFF) ||| (s <<< 24)) = laneR p ∧
    laneG ((p &&& 0x00FFFFFF) ||| (s <<< 24)) = laneG p ∧
    laneB ((p &&& 0x00FFFFFF) ||| (s <<< 24)) = laneB p := by
  refine ⟨?_, ?_, ?_, ?_⟩ <;>
    (apply Nat.eq_of_testBit_eq
     intro i
     simp only [laneA, laneR, laneG, laneB, Nat.testBit_and, Nat.testBit_or,
       Nat.testBit_shiftLeft, Nat.testBit_shiftRight, testBit_maskA,
       testBit_byteMask]
     by_cases hi : i < 8)
  · simp [hi, show ¬(24 + i < 24) by omega, show 24 ≤ 24 + i by omega,
      show 24 + i - 24 = i by omega]
  · simp [hi, testBit_byte_ge hs (show 8 ≤ i by omega)]
  · simp [hi, show 16 + i < 24 by omega, show ¬(24 ≤ 16 + i) by omega]
  · simp [hi]
  · simp [hi, show 8 + i < 24 by omega, show ¬(24 ≤ 8 + i) by omega]
  · simp [hi]
  · simp [hi, show i < 24 by omega, show ¬(24 ≤ i) by omega]
  · simp [hi]

theorem lanes_updateR (p s : Nat) (hs : s < 256) :
    laneR ((p &&& 0xFF00FFFF) ||| (s <<< 16)) = s ∧
    laneA ((p &&& 0xFF00FFFF) ||| (s <<< 16)) = laneA p ∧
    laneG ((p &&& 0xFF00FFFF) ||| (s <<< 16)) = laneG p ∧
    laneB ((p &&& 0xFF00FFFF) ||| (s <<< 16)) = laneB p := by
  refine ⟨?_, ?_, ?_, ?_⟩ <;>
    (apply Nat.eq_of_testBit_eq
     intro i
     simp only [laneA, laneR, laneG, laneB, Nat.testBit_and, Nat.testBit_or,
       Nat.testBit_shiftLeft, Nat.testBit_shiftRight, testBit_maskR,
       testBit_byteMask]
     by_cases hi : i < 8)
  · simp [hi, show ¬(16 + i < 16) by omega, show ¬(24 ≤ 16 + i) by omega,
      show 16 ≤ 16 + i by omega, show 16 + i - 16 = i by omega]
  · simp [hi, testBit_byte_ge hs (show 8 ≤ i by omega)]
  · simp [hi, show ¬(24 + i < 16) by omega, show 24 ≤ 24 + i by omega,
      show 24 + i < 32 by omega, show 16 ≤ 24 + i by omega,
      show 24 + i - 16 = 8 + i by omega,
      testBit_byte_ge hs (show 8 ≤ 8 + i by omega)]
  · simp [hi]
  · simp [hi, show 8 + i < 16 by omega, show ¬(16 ≤ 8 + i) by omega]
  · simp [hi]
  · simp [hi, show i < 16 by omega, show ¬(16 ≤ i) by omega]
  · simp [hi]

theorem lanes_updateG (p s : Nat) (hs : s < 256) :
    laneG ((p &&& 0xFFFF00FF) ||| (s <<< 8)) = s ∧
    laneA ((p &&& 0xFFFF00FF) ||| (s <<< 8)) = laneA p ∧
    laneR ((p &&& 0xFFFF00FF) ||| (s <<< 8)) = laneR p ∧
    laneB ((p &&& 0xFFFF00FF) ||| (s <<< 8)) = laneB p := by
  refine ⟨?_, ?_, ?_, ?_⟩ <;>
    (apply Nat.eq_of_testBit_eq
     intro i
     simp only [laneA, laneR, laneG, laneB, Nat.testBit_and, Nat.testBit_or,
       Nat.testBit_shiftLeft, Nat.testBit_shiftRight, testBit_maskG,
       testBit_byteMask]
     by_cases hi : i < 8)
  · simp [hi, show ¬(8 + i < 8) by omega, show ¬(16 ≤ 8 + i) by omega,
      show 8 ≤ 8 + i by omega, show 8 + i - 8 = i by omega]
  · simp [hi, testBit_byte_ge hs (show 8 ≤ i by omega)]
  · simp [hi, show ¬(24 + i < 8) by omega, show 16 ≤ 24 + i by omega,
      show 24 + i < 32 by omega, show 8 ≤ 24 + i by omega,
      show 24 + i - 8 = 16 + i by omega,
      testBit_byte_ge hs (show 8 ≤ 16 + i by omega)]
  · simp [hi]
  · simp [hi, show ¬(16 + i < 8) by omega, show 16 ≤ 16 + i by omega,
      show 16 + i < 32 by omega, show 8 ≤ 16 + i by omega,
      show 16 + i - 8 = 8 + i by omega,
      testBit_byte_ge hs (show 8 ≤ 8 + i by omega)]
  · simp [hi]
  · simp [hi, show i < 8 by omega, show ¬(8 ≤ i) by omega]
  · simp [hi]

theorem lanes_updateB (p s : Nat) (hs : s < 256) :
    laneB ((p &&& 0xFFFFFF00) ||| (s <<< 0)) = s ∧
    laneA ((p &&& 0xFFFFFF00) ||| (s <<< 0)) = laneA p ∧
    laneR ((p &&& 0xFFFFFF00) ||| (s <<< 0)) = laneR p ∧
    laneG ((p &&& 0xFFFFFF00) ||| (s <<< 0)) = laneG p := by
  refine ⟨?_, ?_, ?_, ?_⟩ <;>
    (apply Nat.eq_of_testBit_eq
     intro i
     simp only [laneA, laneR, laneG, laneB, Nat.testBit_and, Nat.testBit_or,
       Nat.testBit_shiftLeft, Nat.testBit_shiftRight, testBit_maskB,
       testBit_byteMask]
     by_cases hi : i < 8)
  · simp [hi, show ¬(8 ≤ i) by omega]
  · simp [hi, testBit_byte_ge hs (show 8 ≤ i by omega)]
  · simp [hi, show 8 ≤ 24 + i by omega, show 24 + i < 32 by omega,
      testBit_byte_ge hs (show 8 ≤ 24 + i by omega)]
  · simp [hi]
  · simp [hi, show 8 ≤ 16 + i by omega, show 16 + i < 32 by omega,
      testBit_byte_ge hs (show 8 ≤ 16 + i by omega)]
  · simp [hi]
  · simp [hi, show 8 ≤ 8 + i by omega, show 8 + i < 32 by omega,
      testBit_byte_ge hs (show 8 ≤ 8 + i by omega)]
  · simp [hi]

theorem getD_set_eq (l : List Nat) (i a : Nat) (h : i < l.length) :
    (l.set i a).getD i 0 = a := by
  simp [List.getD_eq_getElem?_getD, List.getElem?_set_self, h]

theorem getD_set_ne (l : List Nat) (i j a : Nat) (h : i ≠ j) :
    (l.set i a).getD j 0 = l.getD j 0 := by
  simp [List.getD_eq_getElem?_getD, List.getElem?_set_ne h]

/-- `compoundPixel` on a recognized channel identifier: the selected lane
receives the sub-pixel byte and the other three lanes keep their values. -/
theorem compoundPixel_spec (p s : Nat) (channel : Int) (hs : s < 256)
    (hch : channel = -1 ∨ channel = 0 ∨ channel = 1 ∨ channel = 2) :
    ∃ q, compoundPixel p s channel = some q ∧ laneOf channel q = s ∧
      ∀ ch2 : Int, (ch2 = -1 ∨ ch2 = 0 ∨ ch2 = 1 ∨ ch2 = 2) → ch2 ≠ channel →
        laneOf ch2 q = laneOf ch2 p := by
  rcases hch with h | h | h | h <;> subst h
  · refine ⟨(p &&& 0x00FFFFFF) ||| (s <<< 24), by simp [compoundPixel], ?_, ?_⟩
    · simpa [laneOf] using (lanes_updateA p s hs).1
    · rintro ch2 (h2 | h2 | h2 | h2) hne <;> subst h2
      · exact absurd rfl hne
      · simpa [laneOf] using (lanes_updateA p s hs).2.1
      · simpa [laneOf] using (lanes_updateA p s hs).2.2.1
      · simpa [laneOf] using (lanes_updateA p s hs).2.2.2
  · refine ⟨(p &&& 0xFF00FFFF) ||| (s <<< 16), by simp [compoundPixel], ?_, ?_⟩
    · simpa [laneOf] using (lanes_updateR p s hs).1
    · rintro ch2 (h2 | h2 | h2 | h2) hne <;> subst h2
      · simpa [laneOf] using (lanes_updateR p s hs).2.1
      · exact absurd rfl hne
      · simpa [laneOf] using (lanes_updateR p s hs).2.2.1
      · simpa [laneOf] using (lanes_updateR p s hs).2.2.2
  · refine ⟨(p &&& 0xFFFF00FF) ||| (s <<< 8), by simp [compoundPixel], ?_, ?_⟩
    · simpa [laneOf] using (lanes_updateG p s hs).1
    · rintro ch2 (h2 | h2 | h2 | h2) hne <;> subst h2
      · simpa [laneOf] using (lanes_updateG p s hs).2.1
      · simpa [laneOf] using (lanes_updateG p s hs).2.2.1
      · exact absurd rfl hne
      · simpa [laneOf] using (lanes_updateG p s hs).2.2.2
  · refine ⟨(p &&& 0xFFFFFF00) ||| (s <<< 0), by simp [compoundPixel], ?_, ?_⟩
    · simpa [laneOf] using (lanes_updateB p s hs).1
    · rintro ch2 (h2 | h2 | h2 | h2) hne <;> subst h2
      · simpa [laneOf] using (lanes_updateB p s hs).2.1
      · simpa [laneOf] using (lanes_updateB p s hs).2.2.1
      · simpa [laneOf] using (lanes_updateB p s hs).2.2.2
      · exact absurd rfl hne

/-- The inner compositor loop on a recognized channel with enough plane
bytes for the whole row: it succeeds, keeps the pixel count, leaves
pixels outside `[y*w+x, y*w+w)` unchanged, and at each index of that
range writes the plane byte into the selected lane, leaving the other
lanes unchanged. -/
theorem compoundRow_spec (w : Nat) (bytes : List Nat) (channel : Int) (y : Nat)
    (hch : channel = -1 ∨ channel = 0 ∨ channel = 1 ∨ channel = 2)
    (hbytes : y * w + w ≤ bytes.length) :
    ∀ n x pixels, w - x ≤ n →
      ∃ px, compoundRow w bytes channel y pixels x = (px, none) ∧
        px.length = pixels.length ∧
        (∀ i, i < y * w + x ∨ y * w + w ≤ i → px.getD i 0 = pixels.getD i 0) ∧
        (∀ i, y * w + x ≤ i → i < y * w + w → i < pixels.length →
          laneOf channel (px.getD i 0) = bytes.getD i 0 &&& 0xFF ∧
          ∀ ch2 : Int, (ch2 = -1 ∨ ch2 = 0 ∨ ch2 = 1 ∨ ch2 = 2) →
            ch2 ≠ channel →
            laneOf ch2 (px.getD i 0) = laneOf ch2 (pixels.getD i 0)) := by
  intro n
  induction n with
  | zero =>
    intro x pixels hn
    have hx : ¬ x < w := by omega
    rw [compoundRow, if_neg hx]
    exact ⟨pixels, rfl, rfl, fun i _ => rfl,
      fun i h1 h2 _ => absurd h2 (by omega)⟩
  | succ n ih =>
    intro x pixels hn
    by_cases hx : x < w
    · have hoff : ¬ bytes.length ≤ y * w + x := by omega
      obtain ⟨q, hq, hlq, hoq⟩ := compoundPixel_spec (pixels.getD (y * w + x) 0)
        (bytes.getD (y * w + x) 0 &&& 0xFF) channel
        (by
          have h255 : bytes.getD (y * w + x) 0 &&& 0xFF ≤ 0xFF :=
            Nat.and_le_right
          omega) hch
      obtain ⟨px, hpx, hlen, hunch, hwrit⟩ :=
        ih (x + 1) (pixels.set (y * w + x) q) (by omega)
      have hstep : compoundRow w bytes channel y pixels x
          = compoundRow w bytes channel y (pixels.set (y * w + x) q) (x + 1) := by
        rw [compoundRow, if_pos hx]
        simp only []
        rw [if_neg hoff, hq]
      refine ⟨px, by rw [hstep]; exact hpx, by rw [hlen, List.length_set], ?_, ?_⟩
      · intro i hi
        rw [hunch i (by omega), getD_set_ne _ _ _ _ (by omega)]
      · intro i h1 h2 h3
        by_cases he : i = y * w + x
        · subst he
          have hieq : px.getD (y * w + x) 0 = q := by
            rw [hunch _ (Or.inl (by omega)), getD_set_eq _ _ _ h3]
          exact ⟨by rw [hieq]; exact hlq,
            fun ch2 hc2 hne => by rw [hieq]; exact hoq ch2 hc2 hne⟩
        · have h3' : i < (pixels.set (y * w + x) q).length := by
            rw [List.length_set]; exact h3
          obtain ⟨hw1, hw2⟩ := hwrit i (by omega) h2 h3'
          refine ⟨hw1, fun ch2 hc2 hne => ?_⟩
          rw [hw2 ch2 hc2 hne, getD_set_ne _ _ _ _ (fun hh => he hh.symm)]
    · rw [compoundRow, if_neg hx]
      exact ⟨pixels, rfl, rfl, fun i _ => rfl,
        fun i h1 h2 _ => absurd h2 (by omega)⟩

/-- The outer compositor loop on a recognized channel with enough plane
bytes for all rows from `y` on: it succeeds, keeps the pixel count,
leaves pixels outside `[y*w, h*w)` unchanged, and at each index of that
range writes the plane byte into the selected lane, leaving the other
lanes unchanged. -/
theorem compoundRows_spec (w h : Nat) (bytes : List Nat) (channel : Int)
    (hch : channel = -1 ∨ channel = 0 ∨ channel = 1 ∨ channel = 2)
    (hbytes : h * w ≤ bytes.length) :
    ∀ n y pixels, h - y ≤ n →
      ∃ px, compoundRows w h bytes channel pixels y = (px, none) ∧
        px.length = pixels.length ∧
        (∀ i, i < y * w ∨ h * w ≤ i → px.getD i 0 = pixels.getD i 0) ∧
        (∀ i, y * w ≤ i → i < h * w → i < pixels.length →
          laneOf channel (px.getD i 0) = bytes.getD i 0 &&& 0xFF ∧
          ∀ ch2 : Int, (ch2 = -1 ∨ ch2 = 0 ∨ ch2 = 1 ∨ ch2 = 2) →
            ch2 ≠ channel →
            laneOf ch2 (px.getD i 0) = laneOf ch2 (pixels.getD i 0)) := by
  intro n
  induction n with
  | zero =>
    intro y pixels hn
    have hy : ¬ y < h := by omega
    rw [compoundRows, if_neg hy]
    refine ⟨pixels, rfl, rfl, fun i _ => rfl,
      fun i h1 h2 _ => absurd h2 ?_⟩
    have hle : h * w ≤ y * w := Nat.mul_le_mul (by omega) (le_refl w)
    omega
  | succ n ih =>
    intro y pixels hn
    by_cases hy : y < h
    · have hsm : (y + 1) * w = y * w + w := by rw [Nat.succ_mul]
      have hle : (y + 1) * w ≤ h * w := Nat.mul_le_mul hy (le_refl w)
      obtain ⟨rpx, hrpx, hrlen, hrunch, hrwrit⟩ :=
        compoundRow_spec w bytes channel y hch (by omega) w 0 pixels (by omega)
      obtain ⟨px, hpx, hlen, hunch, hwrit⟩ := ih (y + 1) rpx (by omega)
      have hstep : compoundRows w h bytes channel pixels y
          = compoundRows w h bytes channel rpx (y + 1) := by
        rw [compoundRows, if_pos hy, hrpx]
      refine ⟨px, by rw [hstep]; exact hpx, by rw [hlen, hrlen], ?_, ?_⟩
      · intro i hi
        rw [hunch i (by omega)]
        exact hrunch i (by omega)
      · intro i h1 h2 h3
        by_cases hcase : i < (y + 1) * w
        · have hpq : px.getD i 0 = rpx.getD i 0 := hunch i (Or.inl hcase)
          obtain ⟨hw1, hw2⟩ := hrwrit i (by omega) (by omega) h3
          exact ⟨by rw [hpq]; exact hw1,
            fun ch2 hc2 hne => by rw [hpq, hw2 ch2 hc2 hne]⟩
        · have h3' : i < rpx.length := by rw [hrlen]; exact h3
          obtain ⟨hw1, hw2⟩ := hwrit i (by omega) h2 h3'
          refine ⟨hw1, fun ch2 hc2 hne => ?_⟩
          rw [hw2 ch2 hc2 hne]
          exact congrArg _ (hrunch i (by omega))
    · rw [compoundRows, if_neg hy]
      refine ⟨pixels, rfl, rfl, fun i _ => rfl,
        fun i h1 h2 _ => absurd h2 ?_⟩
      have hle : h * w ≤ y * w := Nat.mul_le_mul (by omega) (le_refl w)
      omega

/-- C9: for a destination raster whose pixel list matches its
dimensions and a decoded channel plane of at least `width*height`
bytes, `compoundLayerChannel` with a recognized channel identifier
(−1 alpha, 0 red, 1 green, 2 blue) succeeds, preserves the raster's
dimensions, and writes the plane's byte for pixel `(x, y)` into exactly
the lane selected by the identifier, leaving the other three lanes of
every pixel unchanged; any other identifier on a non-empty raster is
rejected as `unknownChannel` with the raster untouched. -/
theorem compositor_lanes (img : QImageM) (bytes : List Nat) (channel : Int)
    (hlen : img.pixels.length = img.width * img.height)
    (hbytes : img.width * img.height ≤ bytes.length) :
    ((channel = -1 ∨ channel = 0 ∨ channel = 1 ∨ channel = 2) →
      ∃ out, compoundLayerChannel img bytes channel = (out, none) ∧
        out.width = img.width ∧ out.height = img.height ∧
        ∀ x y, x < img.width → y < img.height →
          laneOf channel (out.pixel x y)
            = bytes.getD (y * img.width + x) 0 &&& 0xFF ∧
          ∀ ch2 : Int, (ch2 = -1 ∨ ch2 = 0 ∨ ch2 = 1 ∨ ch2 = 2) →
            ch2 ≠ channel →
            laneOf ch2 (out.pixel x y) = laneOf ch2 (img.pixel x y)) ∧
    (¬ (channel = -1 ∨ channel = 0 ∨ channel = 1 ∨ channel = 2) →
      0 < img.width → 0 < img.height →
      compoundLayerChannel img bytes channel
        = (img, some CompoundError.unknownChannel)) := by
  constructor
  · intro hch
    have hcomm : img.width * img.height = img.height * img.width :=
      Nat.mul_comm _ _
    obtain ⟨px, hpx, hlen2, hunch, hwrit⟩ :=
      compoundRows_spec img.width img.height bytes channel hch
        (by omega) img.height 0 img.pixels (by omega)
    refine ⟨{ img with pixels := px }, ?_, rfl, rfl, ?_⟩
    · simp only [compoundLayerChannel]
      rw [hpx]
    · intro x y hx hy
      have hsm : (y + 1) * img.width = y * img.width + img.width := by
        rw [Nat.succ_mul]
      have hle : (y + 1) * img.width ≤ img.height * img.width :=
        Nat.mul_le_mul hy (le_refl _)
      have hidx : y * img.width + x < img.height * img.width := by omega
      have hplen : y * img.width + x < img.pixels.length := by omega
      obtain ⟨hw1, hw2⟩ := hwrit (y * img.width + x) (by omega) hidx hplen
      constructor
      · show laneOf channel (px.getD (y * img.width + x) 0) = _
        exact hw1
      · intro ch2 hc2 hne
        show laneOf ch2 (px.getD (y * img.width + x) 0)
            = laneOf ch2 (img.pixels.getD (y * img.width + x) 0)
        exact hw2 ch2 hc2 hne
  · intro hch hw hh
    push_neg at hch
    have hlen0 : 0 < bytes.length := by
      have hp : 0 < img.width * img.height := Nat.mul_pos hw hh
      omega
    have hrow : compoundRow img.width bytes channel 0 img.pixels 0
        = (img.pixels, some CompoundError.unknownChannel) := by
      rw [compoundRow, if_pos hw]
      simp only []
      rw [if_neg (by omega : ¬ bytes.length ≤ 0 * img.width + 0)]
      have hnone : compoundPixel (img.pixels.getD (0 * img.width + 0) 0)
          (bytes.getD (0 * img.width + 0) 0 &&& 0xFF) channel = none := by
        simp [compoundPixel, hch.1, hch.2.1, hch.2.2.1, hch.2.2.2]
      rw [hnone]
    have hrows : compoundRows img.width img.height bytes channel img.pixels 0
        = (img.pixels, some CompoundError.unknownChannel) := by
      rw [compoundRows, if_pos hh, hrow]
    simp only [compoundLayerChannel]
    rw [hrows]

theorem compositor_lanes_witness :
    laneR ((compoundLayerChannel (defaultImage 2 2) [10, 20, 30, 40] 0).1.pixel 0 0) = 10 ∧
    laneR ((compoundLayerChannel (defaultImage 2 2) [10, 20, 30, 40] 0).1.pixel 1 0) = 20 ∧
    laneR ((compoundLayerChannel (defaultImage 2 2) [10, 20, 30, 40] 0).1.pixel 0 1) = 30 ∧
    laneR ((compoundLayerChannel (defaultImage 2 2) [10, 20, 30, 40] 0).1.pixel 1 1) = 40 ∧
    laneA ((compoundLayerChannel (defaultImage 2 2) [10, 20, 30, 40] 0).1.pixel 0 0) = 0 ∧
    (compoundLayerChannel (defaultImage 2 2) [10, 20, 30, 40] 0).2 = none := by
  obtain ⟨hvalid, _⟩ := compositor_lanes (defaultImage 2 2) [10, 20, 30, 40] 0
    (by decide) (by decide)
  obtain ⟨out, hout, hw, hh, hpix⟩ := hvalid (Or.inr (Or.inl rfl))
  rw [hout]
  have ha := (hpix 0 0 (by decide) (by decide)).2 (-1) (Or.inl rfl) (by decide)
  rw [show QImageM.pixel (defaultImage 2 2) 0 0 = 0 from by decide] at ha
  refine ⟨?_, ?_, ?_, ?_, ?_, rfl⟩
  · have h := (hpix 0 0 (by decide) (by decide)).1
    simpa [laneOf, defaultImage] using h
  · have h := (hpix 1 0 (by decide) (by decide)).1
    simpa [laneOf, defaultImage] using h
  · have h := (hpix 0 1 (by decide) (by decide)).1
    simpa [laneOf, defaultImage] using h
  · have h := (hpix 1 1 (by decide) (by decide)).1
    simpa [laneOf, defaultImage] using h
  · simpa [laneOf, laneA] using ha
